import Mathlib

set_option maxHeartbeats 1000000

/-
Verification development for kythe/go/platform/tools/rust_project_to_kzip/rust_project_to_kzip.go.

The Go program converts a rust-project.json crate manifest into a kzip archive of
compilation units.  This file gives a shallow embedding of its core: the data model
(Crate, Dep, Source, RustProject), the string helpers (removeProjectRoot, the
exclude-directory check via filepath.HasPrefix, filepath.Ext), the file-collecting
walk (getSourceFiles over an oracle filesystem of walk entries), the breadth-first
transitive-dependency computation (getTransitiveDependencies), the source-directory
aggregation (getSourceDirs, whose positional slice indexing can panic, modelled as
Option), and a step-by-step model of main's control flow (mainModel).

Go strings are modelled as Lean String values (byte indexing becomes character
indexing, which agrees on the paths involved).  Go map lookups with absent keys
yield zero values, modelled by defaulting lookups.  A Go runtime panic is modelled
as the none case of an Option result, or a distinguished Outcome in mainModel.
-/

/-! ## Data model (structs Source, Dep, Crate, RustProject from the Go file)

Crate identifiers (the Go uint32 CrateId values) are modelled as Nat: they are
only ever compared and used as map keys and slice indices, never overflowed. -/

structure Source where
  includeDirs : Option (List String)
  excludeDirs : Option (List String)
  deriving DecidableEq

structure Dep where
  crate : Nat
  name : String
  deriving DecidableEq

structure Crate where
  rootModule : String
  edition : String
  deps : List Dep
  cfg : List String
  files : List String
  compilerArgs : List String
  crateId : Nat
  label : String
  target : String
  source : Source
  deriving DecidableEq

structure RustProject where
  crates : List Crate
  deriving DecidableEq

/-- Unwraps an optional slice; a nil Go slice and an empty one range identically. -/
def orEmpty : Option (List String) → List String
  | some l => l
  | none => []

/-! ## String helpers: removeProjectRoot, filepath.HasPrefix, filepath.Ext -/

/-- Character-level take, modelling the Go slice expression s[:n]. -/
def strTake (s : String) (n : Nat) : String := String.mk (s.data.take n)

/-- Character-level drop, modelling the Go slice expression s[n:]. -/
def strDrop (s : String) (n : Nat) : String := String.mk (s.data.drop n)

/-- Model of removeProjectRoot: strips projectRoot when it is a leading literal
segment of path, following the Go guard len(path) >= len(projectRoot) and
path[:len(projectRoot)] == projectRoot. -/
def removeProjectRoot (path : String) (projectRoot : String) : String :=
  if projectRoot.length ≤ path.length ∧ strTake path projectRoot.length = projectRoot then
    strDrop path projectRoot.length
  else path

/-- Model of filepath.HasPrefix (a plain strings.HasPrefix on unix): pre is a
literal string head of s. -/
def goHasPfx (s : String) (pre : String) : Bool :=
  decide (pre.length ≤ s.length ∧ strTake s pre.length = pre)

/-- Helper for extGo: scans the reversed character list, mirroring the backwards
loop of filepath.Ext that stops at a path separator. -/
def extLoop : List Char → List Char → String
  | [], _ => ""
  | c :: rest, acc =>
    if c = '/' then ""
    else if c = '.' then String.mk (c :: acc)
    else extLoop rest (c :: acc)

/-- Model of filepath.Ext: the suffix from the final dot of the final
slash-separated element, or the empty string when that element has no dot. -/
def extGo (path : String) : String := extLoop path.data.reverse []

/-! ## File collector: the vfs.Walk callback inside getSourceFiles -/

structure VName where
  corpus : String
  language : String
  path : String
  root : String
  deriving DecidableEq

structure FileInfo where
  path : String
  digest : String
  deriving DecidableEq

structure FileInput where
  vname : VName
  info : FileInfo
  deriving DecidableEq

/-- One callback invocation of the walk, as the embedding sees it: the visited
path, whether it is a directory, whether the walk passed an error in, whether
vfs.Open fails, whether kzip AddFile fails, and the digest AddFile would return. -/
structure WalkEntry where
  path : String
  isDir : Bool
  walkErr : Bool
  openErr : Bool
  addFileErr : Bool
  digest : String
  deriving DecidableEq

/-- Model of the walk callback body of getSourceFiles: propagate a passed-in
error, skip directories, skip paths with an exclude-directory literal head,
skip non .rs extensions, propagate open and AddFile errors, and otherwise
record the project-root-stripped path in both accumulators. -/
def walkCallback (exclude_dirs : List String) (projectRoot : String)
    (st : List String × List FileInput) (e : WalkEntry) :
    Except Unit (List String × List FileInput) :=
  if e.walkErr then .error ()
  else if e.isDir then .ok st
  else if exclude_dirs.any (fun x => goHasPfx e.path x) then .ok st
  else if extGo e.path ≠ ".rs" then .ok st
  else if e.openErr then .error ()
  else if e.addFileErr then .error ()
  else
    let p := removeProjectRoot e.path projectRoot
    .ok (st.1 ++ [p], st.2 ++ [⟨⟨"fuchsia", "rust", p, ""⟩, ⟨p, e.digest⟩⟩])

/-- Model of one vfs.Walk invocation: the callback runs over the entries in
order; a callback error aborts the walk, keeping the state accumulated so far
(the Bool records whether the walk returned an error). -/
def runWalk (exclude_dirs : List String) (projectRoot : String) :
    List WalkEntry → (List String × List FileInput) → Bool × (List String × List FileInput)
  | [], st => (false, st)
  | e :: rest, st =>
    match walkCallback exclude_dirs projectRoot st e with
    | .error _ => (true, st)
    | .ok st2 => runWalk exclude_dirs projectRoot rest st2

structure CollectResult where
  sourceFiles : List String
  requiredInputs : List FileInput
  err : Bool
  deriving DecidableEq

/-- Model of getSourceFiles: walk each include directory in order against the
filesystem oracle fs; a failed walk is skipped with a continue, keeping the
partial state; the function itself always returns a nil error. -/
def getSourceFiles (include_dirs : List String) (exclude_dirs : List String)
    (projectRoot : String) (required_inputs : List FileInput)
    (fs : String → List WalkEntry) : CollectResult :=
  let st := include_dirs.foldl
    (fun st dir => (runWalk exclude_dirs projectRoot (fs dir) st).2)
    ([], required_inputs)
  ⟨st.1, st.2, false⟩

/-! ## Transitive dependency closure: getTransitiveDependencies -/

/-- Model of reading the crate_deps map: a missing key yields the nil slice. -/
def lookupDeps (adj : List (Nat × List Nat)) (k : Nat) : List Nat :=
  match adj.find? (fun p => p.1 == k) with
  | some p => p.2
  | none => []

/-- Every dependency id stored anywhere in the adjacency map. -/
def allTargets (adj : List (Nat × List Nat)) : List Nat :=
  (adj.map Prod.snd).flatten

/-- One iteration of the inner loop of getTransitiveDependencies: a dependency
not yet visited is appended to the queue and marked visited. -/
def enqDep (qv : List Nat × List Nat) (d : Nat) : List Nat × List Nat :=
  if d ∈ qv.2 then qv else (qv.1 ++ [d], d :: qv.2)

theorem lookupDeps_sub_targets (adj : List (Nat × List Nat)) (k d : Nat)
    (h : d ∈ lookupDeps adj k) : d ∈ allTargets adj := by
  unfold lookupDeps at h
  cases hf : adj.find? (fun p => p.1 == k) with
  | none => rw [hf] at h; simp at h
  | some p =>
    rw [hf] at h
    have hp : p ∈ adj := List.mem_of_find?_eq_some hf
    exact List.mem_flatten.mpr ⟨p.2, List.mem_map.mpr ⟨p, hp, rfl⟩, h⟩

theorem enqDep_fold_measure (T : Finset Nat) (deps : List Nat)
    (h : ∀ d ∈ deps, d ∈ T) (q v : List Nat) :
    2 * (T \ (deps.foldl enqDep (q, v)).2.toFinset).card
      + (deps.foldl enqDep (q, v)).1.length
      ≤ 2 * (T \ v.toFinset).card + q.length := by
  induction deps generalizing q v with
  | nil => simp
  | cons d rest ih =>
    simp only [List.foldl_cons]
    by_cases hd : d ∈ v
    · rw [show enqDep (q, v) d = (q, v) from by simp [enqDep, hd]]
      exact ih (fun x hx => h x (List.mem_cons_of_mem d hx)) q v
    · rw [show enqDep (q, v) d = (q ++ [d], d :: v) from by simp [enqDep, hd]]
      refine (ih (fun x hx => h x (List.mem_cons_of_mem d hx)) (q ++ [d]) (d :: v)).trans ?_
      have hdT : d ∈ T := h d (List.mem_cons_self d rest)
      have hmem : d ∈ T \ v.toFinset := Finset.mem_sdiff.mpr ⟨hdT, by simpa using hd⟩
      have hcard : (T \ (d :: v).toFinset).card = (T \ v.toFinset).card - 1 := by
        rw [List.toFinset_cons, Finset.sdiff_insert, Finset.card_erase_of_mem hmem]
      have hpos : 1 ≤ (T \ v.toFinset).card := Finset.card_pos.mpr ⟨d, hmem⟩
      simp only [List.length_append, List.length_cons, List.length_nil, hcard]
      omega

/-- Model of the breadth-first loop of getTransitiveDependencies: dequeue the
head, enqueue its not-yet-visited direct dependencies, and return the visited
list when the queue is empty. -/
def bfsLoop (adj : List (Nat × List Nat)) (queue visited : List Nat) :
    List Nat :=
  match queue with
  | [] => visited
  | cur :: rest =>
    let p := (lookupDeps adj cur).foldl enqDep (rest, visited)
    bfsLoop adj p.1 p.2
termination_by 2 * ((allTargets adj).toFinset \ visited.toFinset).card + queue.length
decreasing_by
  have h := enqDep_fold_measure (allTargets adj).toFinset (lookupDeps adj cur)
    (fun d hd => List.mem_toFinset.mpr (lookupDeps_sub_targets adj cur d hd)) rest visited
  simp only [List.length_cons]
  omega

theorem bfsLoop_nil (adj : List (Nat × List Nat)) (visited : List Nat) :
    bfsLoop adj [] visited = visited := by
  rw [bfsLoop]

theorem bfsLoop_cons (adj : List (Nat × List Nat)) (cur : Nat)
    (rest visited : List Nat) :
    bfsLoop adj (cur :: rest) visited =
      bfsLoop adj ((lookupDeps adj cur).foldl enqDep (rest, visited)).1
        ((lookupDeps adj cur).foldl enqDep (rest, visited)).2 := by
  rw [bfsLoop]

/-- Model of getTransitiveDependencies: the queue and the visited set both start
with the crate itself; the returned list is every visited id except the start.
The Go extraction order over the visited map is unspecified, so claims about the
result are stated set-wise. -/
def getTransitiveDependencies (crateId : Nat)
    (crate_deps : List (Nat × List Nat)) : List Nat :=
  (bfsLoop crate_deps [crateId] [crateId]).filter (fun k => k ≠ crateId)

/-- Reachability along dependency edges of the adjacency map, the set-level
description that the breadth-first traversal computes. -/
def Reachable (adj : List (Nat × List Nat)) (a b : Nat) : Prop :=
  Relation.ReflTransGen (fun x y => y ∈ lookupDeps adj x) a b

/-- Model of building the crate_deps map in main: each crate appends the ids of
its direct dependencies to its own map entry. -/
def updAssoc (m : List (Nat × List Nat)) (k : Nat) (v : Nat) :
    List (Nat × List Nat) :=
  match m with
  | [] => [(k, [v])]
  | (k2, vs) :: rest =>
    if k2 = k then (k2, vs ++ [v]) :: rest else (k2, vs) :: updAssoc rest k v

def buildCrateDeps (crates : List Crate) : List (Nat × List Nat) :=
  crates.foldl (fun m c => c.deps.foldl (fun m2 d => updAssoc m2 c.crateId d.crate) m) []

/-! ## Source directory aggregation: getSourceDirs -/

/-- One iteration of the dependency loop in getSourceDirs: the dep id indexes the
crates slice positionally; an out-of-range id is a Go index-out-of-range panic,
modelled as none.  Dep contributions are gated on the dep crate having a non-nil
IncludeDirs slice, for the exclude list as well. -/
def depDirsStep (crates : List Crate) (acc : Option (List String × List String))
    (dep : Nat) : Option (List String × List String) :=
  match acc with
  | none => none
  | some (inc, exc) =>
    match crates[dep]? with
    | none => none
    | some c =>
      if c.source.includeDirs ≠ none then
        some (inc ++ orEmpty c.source.includeDirs, exc ++ orEmpty c.source.excludeDirs)
      else some (inc, exc)

/-- The include and exclude directories contributed by a list of dependency ids,
in order, as getSourceDirs accumulates them. -/
def depDirs (crates : List Crate) (deps : List Nat) :
    Option (List String × List String) :=
  deps.foldl (depDirsStep crates) (some ([], []))

/-- Model of the loop body of getSourceDirs over the crates slice, threading the
two maps (modelled as functions defaulting to the nil slice). -/
def getSourceDirsAux (crates : List Crate) (tdeps : Nat → List Nat) :
    List Crate → ((Nat → List String) × (Nat → List String)) →
    Option ((Nat → List String) × (Nat → List String))
  | [], m => some m
  | c :: rest, m =>
    match depDirs crates (tdeps c.crateId) with
    | none => none
    | some dd =>
      getSourceDirsAux crates tdeps rest
        (Function.update m.1 c.crateId (m.1 c.crateId ++ orEmpty c.source.includeDirs ++ dd.1),
         Function.update m.2 c.crateId (m.2 c.crateId ++ orEmpty c.source.excludeDirs ++ dd.2))

/-- Model of getSourceDirs: none models the index-out-of-range panic on the
positional read crates[dep]. -/
def getSourceDirs (crates : List Crate) (tdeps : Nat → List Nat) :
    Option ((Nat → List String) × (Nat → List String)) :=
  getSourceDirsAux crates tdeps crates (fun _ => [], fun _ => [])

/-- Spec-side description of the directories a crate's closure contributes: for
each closure id in order, the directories declared by the crate addressed by
that CrateId, when it declares include directories at all. -/
def specClosureDirs (crates : List Crate) (proj : Source → Option (List String)) :
    List Nat → List String
  | [] => []
  | d :: rest =>
    (match crates.find? (fun cd => cd.crateId == d) with
      | some cd => if cd.source.includeDirs ≠ none then orEmpty (proj cd.source) else []
      | none => []) ++ specClosureDirs crates proj rest

/-- Code-side description of the same contributions, reading the crates slice
positionally exactly as getSourceDirs does. -/
def posClosureDirs (crates : List Crate) (proj : Source → Option (List String)) :
    List Nat → List String
  | [] => []
  | d :: rest =>
    (match crates[d]? with
      | some cd => if cd.source.includeDirs ≠ none then orEmpty (proj cd.source) else []
      | none => []) ++ posClosureDirs crates proj rest

/-! ## Driver model: the control flow of main -/

inductive RootStatus where
  | okDir
  | missing
  | notDir
  | statErr
  deriving DecidableEq

inductive PanicSite where
  | emptyProjectRootIndex
  | firstCrateIndex
  | sourceDirsIndex
  deriving DecidableEq

inductive FatalReason where
  | rootMissing
  | rootNotDir
  | rootStatErr
  | manifestOpen
  | manifestDecode
  | createOut
  | newWriter
  deriving DecidableEq

inductive Outcome where
  | exitUsage
  | panicIndexOutOfRange (site : PanicSite)
  | exitFatal (reason : FatalReason)
  | done (unitsWritten : Nat)
  deriving DecidableEq

structure RunResult where
  removedOutputDir : Bool
  createdArchive : Bool
  outcome : Outcome
  deriving DecidableEq

/-- External collaborators of main, as oracles: the argument vector, the stat of
the project root, the opened and decoded manifest (outer none: open fails; inner
none: decode fails), creation of the output and of the kzip writer, the walk
oracle, and whether AddUnit fails for a crate. -/
structure World where
  args : List String
  rootStat : String → RootStatus
  manifest : Option (Option RustProject)
  createOut : Bool
  newWriter : Bool
  fs : String → List WalkEntry
  addUnitErr : Crate → Bool

/-- Model of the trailing-separator normalization of the project root; only
reached when the argument is nonempty. -/
def normalizeRoot (r : String) : String :=
  if r.data.getLast? ≠ some '/' then r ++ "/" else r

/-- Model of the per-crate body of main's loop: two getSourceFiles calls (own
dirs, then aggregated dirs), then AddUnit; any failure skips the crate, a
success increments the written-unit counter. -/
def crateLoopStep (w : World) (projectRoot : String)
    (incM excM : Nat → List String) (i : Nat) (crate : Crate) : Nat :=
  let r1 := getSourceFiles (orEmpty crate.source.includeDirs)
    (orEmpty crate.source.excludeDirs) projectRoot [] w.fs
  if r1.err then i
  else
    let r2 := getSourceFiles (incM crate.crateId) (excM crate.crateId) projectRoot [] w.fs
    if r2.err then i
    else if w.addUnitErr crate then i
    else i + 1

/-- Model of main, step by step in source order: argument count check, the
projectRoot[len-1] read (a panic when the argument is empty), root stat checks,
manifest open and decode, the crates[0] marshal (a panic when there are no
crates), removal of the output directory, closure and source-dir computation
(getSourceDirs may panic), output and writer creation, then the crate loop. -/
def mainModel (w : World) : RunResult :=
  if w.args.length < 4 then ⟨false, false, .exitUsage⟩
  else
    let root0 := w.args.getD 3 ""
    if root0.length = 0 then ⟨false, false, .panicIndexOutOfRange .emptyProjectRootIndex⟩
    else
      let projectRoot := normalizeRoot root0
      match w.rootStat projectRoot with
      | .missing => ⟨false, false, .exitFatal .rootMissing⟩
      | .notDir => ⟨false, false, .exitFatal .rootNotDir⟩
      | .statErr => ⟨false, false, .exitFatal .rootStatErr⟩
      | .okDir =>
        match w.manifest with
        | none => ⟨false, false, .exitFatal .manifestOpen⟩
        | some none => ⟨false, false, .exitFatal .manifestDecode⟩
        | some (some project) =>
          match project.crates with
          | [] => ⟨false, false, .panicIndexOutOfRange .firstCrateIndex⟩
          | c0 :: restCrates =>
            let crates := c0 :: restCrates
            let adj := buildCrateDeps crates
            let tdeps := fun k => getTransitiveDependencies k adj
            match getSourceDirs crates tdeps with
            | none => ⟨true, false, .panicIndexOutOfRange .sourceDirsIndex⟩
            | some m =>
              if w.createOut = false then ⟨true, false, .exitFatal .createOut⟩
              else if w.newWriter = false then ⟨true, true, .exitFatal .newWriter⟩
              else ⟨true, true, .done (crates.foldl (crateLoopStep w projectRoot m.1 m.2) 0)⟩

/-! ## Properties of the enqueue fold inside the breadth-first loop -/

theorem enqFold_cons (d : Nat) (rest : List Nat) (q v : List Nat) :
    (d :: rest).foldl enqDep (q, v) =
      if d ∈ v then rest.foldl enqDep (q, v)
      else rest.foldl enqDep (q ++ [d], d :: v) := by
  by_cases h : d ∈ v <;> simp [List.foldl_cons, enqDep, h]

theorem enqFold_queue_sub (deps : List Nat) (q v : List Nat) (x : Nat)
    (hx : x ∈ q) : x ∈ (deps.foldl enqDep (q, v)).1 := by
  induction deps generalizing q v with
  | nil => simpa using hx
  | cons d rest ih =>
    rw [enqFold_cons]
    by_cases h : d ∈ v
    · simp only [h, if_true]; exact ih q v hx
    · simp only [h, if_false]
      exact ih (q ++ [d]) (d :: v) (List.mem_append_left _ hx)

theorem enqFold_vis_sub (deps : List Nat) (q v : List Nat) (x : Nat)
    (hx : x ∈ v) : x ∈ (deps.foldl enqDep (q, v)).2 := by
  induction deps generalizing q v with
  | nil => simpa using hx
  | cons d rest ih =>
    rw [enqFold_cons]
    by_cases h : d ∈ v
    · simp only [h, if_true]; exact ih q v hx
    · simp only [h, if_false]
      exact ih (q ++ [d]) (d :: v) (List.mem_cons_of_mem d hx)

theorem enqFold_vis_cases (deps : List Nat) (q v : List Nat) (x : Nat)
    (hx : x ∈ (deps.foldl enqDep (q, v)).2) : x ∈ v ∨ x ∈ deps := by
  induction deps generalizing q v with
  | nil => left; simpa using hx
  | cons d rest ih =>
    rw [enqFold_cons] at hx
    by_cases h : d ∈ v
    · simp only [h, if_true] at hx
      rcases ih q v hx with h1 | h1
      · exact Or.inl h1
      · exact Or.inr (List.mem_cons_of_mem d h1)
    · simp only [h, if_false] at hx
      rcases ih (q ++ [d]) (d :: v) hx with h1 | h1
      · rcases List.mem_cons.mp h1 with h2 | h2
        · exact Or.inr (h2 ▸ List.mem_cons_self d rest)
        · exact Or.inl h2
      · exact Or.inr (List.mem_cons_of_mem d h1)

theorem enqFold_queue_in_vis (deps : List Nat) (q v : List Nat)
    (hq : ∀ x ∈ q, x ∈ v) (x : Nat) (hx : x ∈ (deps.foldl enqDep (q, v)).1) :
    x ∈ (deps.foldl enqDep (q, v)).2 := by
  induction deps generalizing q v with
  | nil => simp only [List.foldl_nil] at hx ⊢; exact hq x hx
  | cons d rest ih =>
    rw [enqFold_cons] at hx ⊢
    by_cases h : d ∈ v
    · simp only [h, if_true] at hx ⊢; exact ih q v hq hx
    · simp only [h, if_false] at hx ⊢
      refine ih (q ++ [d]) (d :: v) ?_ hx
      intro y hy
      rcases List.mem_append.mp hy with h1 | h1
      · exact List.mem_cons_of_mem d (hq y h1)
      · simp only [List.mem_singleton] at h1
        exact h1 ▸ List.mem_cons_self d v

theorem enqFold_deps_vis (deps : List Nat) (q v : List Nat)
    (d : Nat) (hd : d ∈ deps) : d ∈ (deps.foldl enqDep (q, v)).2 := by
  induction deps generalizing q v with
  | nil => simp at hd
  | cons e rest ih =>
    rw [enqFold_cons]
    rcases List.mem_cons.mp hd with h1 | h1
    · subst h1
      by_cases h : d ∈ v
      · simp only [h, if_true]; exact enqFold_vis_sub rest q v d h
      · simp only [h, if_false]
        exact enqFold_vis_sub rest (q ++ [d]) (d :: v) d (List.mem_cons_self d v)
    · by_cases h : e ∈ v
      · simp only [h, if_true]; exact ih q v h1
      · simp only [h, if_false]; exact ih (q ++ [e]) (e :: v) h1

theorem enqFold_nodup (deps : List Nat) (q v : List Nat)
    (hv : v.Nodup) : (deps.foldl enqDep (q, v)).2.Nodup := by
  induction deps generalizing q v with
  | nil => simpa using hv
  | cons d rest ih =>
    rw [enqFold_cons]
    by_cases h : d ∈ v
    · simp only [h, if_true]; exact ih q v hv
    · simp only [h, if_false]
      exact ih (q ++ [d]) (d :: v) (List.nodup_cons.mpr ⟨h, hv⟩)

theorem enqFold_vis_not_queue (deps : List Nat) (q v : List Nat) (x : Nat)
    (hx : x ∈ (deps.foldl enqDep (q, v)).2) (hq : x ∉ (deps.foldl enqDep (q, v)).1) :
    x ∈ v := by
  induction deps generalizing q v with
  | nil => simpa using hx
  | cons d rest ih =>
    rw [enqFold_cons] at hx hq
    by_cases h : d ∈ v
    · simp only [h, if_true] at hx hq; exact ih q v hx hq
    · simp only [h, if_false] at hx hq
      have h1 : x ∈ d :: v := ih (q ++ [d]) (d :: v) hx hq
      rcases List.mem_cons.mp h1 with h2 | h2
      · exfalso
        exact hq (enqFold_queue_sub rest (q ++ [d]) (d :: v) x
          (h2 ▸ List.mem_append_right q (List.mem_singleton.mpr rfl)))
      · exact h2

/-! ## Invariants of the breadth-first loop -/

theorem bfsLoop_spec (adj : List (Nat × List Nat)) (src : Nat) :
    ∀ queue visited : List Nat,
    (∀ x ∈ queue, x ∈ visited) →
    (∀ x ∈ visited, x ∉ queue → ∀ d ∈ lookupDeps adj x, d ∈ visited) →
    (∀ x ∈ visited, Reachable adj src x) →
    visited.Nodup →
    (∀ x ∈ visited, x = src ∨ x ∈ allTargets adj) →
    (∀ x ∈ visited, x ∈ bfsLoop adj queue visited) ∧
    (∀ x ∈ bfsLoop adj queue visited, ∀ d ∈ lookupDeps adj x, d ∈ bfsLoop adj queue visited) ∧
    (∀ x ∈ bfsLoop adj queue visited, Reachable adj src x) ∧
    (bfsLoop adj queue visited).Nodup ∧
    (∀ x ∈ bfsLoop adj queue visited, x = src ∨ x ∈ allTargets adj) := by
  intro queue visited
  induction queue, visited using bfsLoop.induct adj with
  | case1 visited =>
    intro _ h2 h3 h4 h5
    rw [bfsLoop_nil]
    exact ⟨fun x hx => hx, fun x hx d hd => h2 x hx (by simp) d hd, h3, h4, h5⟩
  | case2 visited cur rest p ih =>
    intro h1 h2 h3 h4 h5
    rw [bfsLoop_cons]
    have hcurv : cur ∈ visited := h1 cur (List.mem_cons_self cur rest)
    have hq2 : ∀ x ∈ p.1, x ∈ p.2 :=
      enqFold_queue_in_vis (lookupDeps adj cur) rest visited
        (fun x hx => h1 x (List.mem_cons_of_mem cur hx))
    have hclosed2 : ∀ x ∈ p.2, x ∉ p.1 → ∀ d ∈ lookupDeps adj x, d ∈ p.2 := by
      intro x hx hxq d hd
      have hxv : x ∈ visited := enqFold_vis_not_queue _ _ _ x hx hxq
      by_cases hxc : x = cur
      · exact enqFold_deps_vis (lookupDeps adj cur) rest visited d (hxc ▸ hd)
      · have hxrest : x ∉ rest := fun hr => hxq (enqFold_queue_sub _ _ _ x hr)
        have hxqueue : x ∉ cur :: rest := by
          intro hc
          rcases List.mem_cons.mp hc with h6 | h6
          · exact hxc h6
          · exact hxrest h6
        exact enqFold_vis_sub _ _ _ d (h2 x hxv hxqueue d hd)
    have hreach2 : ∀ x ∈ p.2, Reachable adj src x := by
      intro x hx
      rcases enqFold_vis_cases _ _ _ x hx with h6 | h6
      · exact h3 x h6
      · exact Relation.ReflTransGen.tail (h3 cur hcurv) h6
    have hnodup2 : p.2.Nodup := enqFold_nodup _ _ _ h4
    have htarg2 : ∀ x ∈ p.2, x = src ∨ x ∈ allTargets adj := by
      intro x hx
      rcases enqFold_vis_cases _ _ _ x hx with h6 | h6
      · exact h5 x h6
      · exact Or.inr (lookupDeps_sub_targets adj cur x h6)
    obtain ⟨g1, g2, g3, g4, g5⟩ := ih hq2 hclosed2 hreach2 hnodup2 htarg2
    exact ⟨fun x hx => g1 x (enqFold_vis_sub _ _ _ x hx), g2, g3, g4, g5⟩

theorem bfs_result_spec (adj : List (Nat × List Nat)) (src : Nat) :
    (∀ x ∈ bfsLoop adj [src] [src], Reachable adj src x) ∧
    (∀ x, Reachable adj src x → x ∈ bfsLoop adj [src] [src]) ∧
    (bfsLoop adj [src] [src]).Nodup ∧
    (∀ x ∈ bfsLoop adj [src] [src], x = src ∨ x ∈ allTargets adj) := by
  have hinv := bfsLoop_spec adj src [src] [src]
    (by intro x hx; exact hx)
    (by
      intro x hx hxq
      exact absurd hx (by simpa using hxq))
    (by
      intro x hx
      simp only [List.mem_singleton] at hx
      exact hx ▸ Relation.ReflTransGen.refl)
    (List.nodup_singleton src)
    (by
      intro x hx
      simp only [List.mem_singleton] at hx
      exact Or.inl hx)
  obtain ⟨g1, g2, g3, g4, g5⟩ := hinv
  refine ⟨g3, ?_, g4, g5⟩
  intro x hx
  induction hx with
  | refl => exact g1 src (List.mem_singleton.mpr rfl)
  | tail _ hstep ih => exact g2 _ ih _ hstep

theorem closure_mem_iff (c : Nat) (adj : List (Nat × List Nat)) (x : Nat) :
    x ∈ getTransitiveDependencies c adj ↔ (Reachable adj c x ∧ x ≠ c) := by
  obtain ⟨g1, g2, _, _⟩ := bfs_result_spec adj c
  unfold getTransitiveDependencies
  simp only [List.mem_filter, decide_eq_true_eq]
  constructor
  · rintro ⟨hmem, hne⟩
    exact ⟨g1 x hmem, hne⟩
  · rintro ⟨hreach, hne⟩
    exact ⟨g2 x hreach, hne⟩

theorem closure_nodup (c : Nat) (adj : List (Nat × List Nat)) :
    (getTransitiveDependencies c adj).Nodup := by
  obtain ⟨_, _, g3, _⟩ := bfs_result_spec adj c
  exact g3.filter _

theorem closure_not_self (c : Nat) (adj : List (Nat × List Nat)) :
    c ∉ getTransitiveDependencies c adj := by
  intro h
  exact ((closure_mem_iff c adj c).mp h).2 rfl

theorem closure_sub_targets (c : Nat) (adj : List (Nat × List Nat)) (x : Nat)
    (hx : x ∈ getTransitiveDependencies c adj) : x ∈ allTargets adj := by
  obtain ⟨_, _, _, g5⟩ := bfs_result_spec adj c
  unfold getTransitiveDependencies at hx
  rw [List.mem_filter] at hx
  rcases g5 x hx.1 with h1 | h1
  · exact absurd h1 (by simpa using hx.2)
  · exact h1

theorem closure_of_no_entry (c : Nat) (adj : List (Nat × List Nat))
    (h : lookupDeps adj c = []) : getTransitiveDependencies c adj = [] := by
  unfold getTransitiveDependencies
  rw [bfsLoop_cons, h]
  simp [bfsLoop_nil]

/-! ## Properties of the walk callback and the collector -/

/-- An entry the callback actually records: it arrives without error, is a file,
survives the exclude and extension filters, and opening and digesting succeed. -/
def collectedEntry (exclude_dirs : List String) (e : WalkEntry) : Prop :=
  e.walkErr = false ∧ e.isDir = false ∧
  (∀ x ∈ exclude_dirs, goHasPfx e.path x = false) ∧
  extGo e.path = ".rs" ∧ e.openErr = false ∧ e.addFileErr = false

theorem walkCallback_cases (ex : List String) (root : String)
    (st : List String × List FileInput) (e : WalkEntry) :
    walkCallback ex root st e = .error () ∨
    walkCallback ex root st e = .ok st ∨
    (collectedEntry ex e ∧
      walkCallback ex root st e =
        .ok (st.1 ++ [removeProjectRoot e.path root],
          st.2 ++ [⟨⟨"fuchsia", "rust", removeProjectRoot e.path root, ""⟩,
            ⟨removeProjectRoot e.path root, e.digest⟩⟩])) := by
  by_cases h1 : e.walkErr = true
  · left; simp [walkCallback, h1]
  by_cases h2 : e.isDir = true
  · right; left; simp [walkCallback, h1, h2]
  by_cases h3 : ex.any (fun x => goHasPfx e.path x) = true
  · right; left; simp [walkCallback, h1, h2, h3]
  by_cases h4 : extGo e.path = ".rs"
  · by_cases h5 : e.openErr = true
    · left; simp [walkCallback, h1, h2, h3, h4, h5]
    by_cases h6 : e.addFileErr = true
    · left; simp [walkCallback, h1, h2, h3, h4, h5, h6]
    · right; right
      refine ⟨⟨by simpa using h1, by simpa using h2, ?_, h4, by simpa using h5,
        by simpa using h6⟩, ?_⟩
      · intro x hx
        simp only [List.any_eq_true, not_exists, not_and] at h3
        have := h3 x hx
        simpa using this
      · simp [walkCallback, h1, h2, h3, h4, h5, h6]
  · right; left; simp [walkCallback, h1, h2, h3, h4]

theorem walkCallback_skip (ex : List String) (root : String)
    (st : List String × List FileInput) (e : WalkEntry)
    (h1 : e.walkErr = false) (h2 : e.isDir = false)
    (h3 : (∃ x ∈ ex, goHasPfx e.path x = true) ∨ extGo e.path ≠ ".rs") :
    walkCallback ex root st e = .ok st := by
  rcases h3 with h3 | h3
  · have hany : ex.any (fun x => goHasPfx e.path x) = true := List.any_eq_true.mpr h3
    simp [walkCallback, h1, h2, hany]
  · by_cases hany : ex.any (fun x => goHasPfx e.path x) = true
    · simp [walkCallback, h1, h2, hany]
    · simp [walkCallback, h1, h2, hany, h3]

theorem runWalk_sources_sub (ex : List String) (root : String) :
    ∀ (entries : List WalkEntry) (st : List String × List FileInput),
    ∀ p ∈ (runWalk ex root entries st).2.1,
      p ∈ st.1 ∨ ∃ e ∈ entries, collectedEntry ex e ∧ p = removeProjectRoot e.path root := by
  intro entries
  induction entries with
  | nil => intro st p hp; left; simpa [runWalk] using hp
  | cons e rest ih =>
    intro st p hp
    rcases walkCallback_cases ex root st e with hcb | hcb | ⟨hcol, hcb⟩ <;>
      simp only [runWalk, hcb] at hp
    · left; exact hp
    · rcases ih st p hp with h | ⟨e2, he2, h⟩
      · left; exact h
      · right; exact ⟨e2, List.mem_cons_of_mem e he2, h⟩
    · rcases ih _ p hp with h | ⟨e2, he2, h⟩
      · rcases List.mem_append.mp h with h2 | h2
        · left; exact h2
        · right
          exact ⟨e, List.mem_cons_self e rest, hcol, List.mem_singleton.mp h2⟩
      · right; exact ⟨e2, List.mem_cons_of_mem e he2, h⟩

theorem runWalk_inputs_sub (ex : List String) (root : String) :
    ∀ (entries : List WalkEntry) (st : List String × List FileInput),
    ∀ i ∈ (runWalk ex root entries st).2.2,
      i ∈ st.2 ∨ ∃ e ∈ entries, collectedEntry ex e ∧
        i = ⟨⟨"fuchsia", "rust", removeProjectRoot e.path root, ""⟩,
          ⟨removeProjectRoot e.path root, e.digest⟩⟩ := by
  intro entries
  induction entries with
  | nil => intro st i hi; left; simpa [runWalk] using hi
  | cons e rest ih =>
    intro st i hi
    rcases walkCallback_cases ex root st e with hcb | hcb | ⟨hcol, hcb⟩ <;>
      simp only [runWalk, hcb] at hi
    · left; exact hi
    · rcases ih st i hi with h | ⟨e2, he2, h⟩
      · left; exact h
      · right; exact ⟨e2, List.mem_cons_of_mem e he2, h⟩
    · rcases ih _ i hi with h | ⟨e2, he2, h⟩
      · rcases List.mem_append.mp h with h2 | h2
        · left; exact h2
        · right
          exact ⟨e, List.mem_cons_self e rest, hcol, List.mem_singleton.mp h2⟩
      · right; exact ⟨e2, List.mem_cons_of_mem e he2, h⟩

theorem collectFold_sources_sub (ex : List String) (root : String)
    (fs : String → List WalkEntry) :
    ∀ (dirs : List String) (st : List String × List FileInput),
    ∀ p ∈ (dirs.foldl (fun st dir => (runWalk ex root (fs dir) st).2) st).1,
      p ∈ st.1 ∨ ∃ d ∈ dirs, ∃ e ∈ fs d, collectedEntry ex e ∧
        p = removeProjectRoot e.path root := by
  intro dirs
  induction dirs with
  | nil => intro st p hp; left; simpa using hp
  | cons d rest ih =>
    intro st p hp
    simp only [List.foldl_cons] at hp
    rcases ih _ p hp with h | ⟨d2, hd2, e2, he2, h⟩
    · rcases runWalk_sources_sub ex root (fs d) st p h with h2 | ⟨e2, he2, h2⟩
      · left; exact h2
      · right; exact ⟨d, List.mem_cons_self d rest, e2, he2, h2⟩
    · right; exact ⟨d2, List.mem_cons_of_mem d hd2, e2, he2, h⟩

theorem collectFold_inputs_sub (ex : List String) (root : String)
    (fs : String → List WalkEntry) :
    ∀ (dirs : List String) (st : List String × List FileInput),
    ∀ i ∈ (dirs.foldl (fun st dir => (runWalk ex root (fs dir) st).2) st).2,
      i ∈ st.2 ∨ ∃ d ∈ dirs, ∃ e ∈ fs d, collectedEntry ex e ∧
        i = ⟨⟨"fuchsia", "rust", removeProjectRoot e.path root, ""⟩,
          ⟨removeProjectRoot e.path root, e.digest⟩⟩ := by
  intro dirs
  induction dirs with
  | nil => intro st i hi; left; simpa using hi
  | cons d rest ih =>
    intro st i hi
    simp only [List.foldl_cons] at hi
    rcases ih _ i hi with h | ⟨d2, hd2, e2, he2, h⟩
    · rcases runWalk_inputs_sub ex root (fs d) st i h with h2 | ⟨e2, he2, h2⟩
      · left; exact h2
      · right; exact ⟨d, List.mem_cons_self d rest, e2, he2, h2⟩
    · right; exact ⟨d2, List.mem_cons_of_mem d hd2, e2, he2, h⟩

theorem runWalk_abort (ex : List String) (root : String) :
    ∀ (pre : List WalkEntry) (e : WalkEntry) (post : List WalkEntry)
      (st : List String × List FileInput),
    (runWalk ex root pre st).1 = false →
    walkCallback ex root (runWalk ex root pre st).2 e = .error () →
    runWalk ex root (pre ++ e :: post) st = (true, (runWalk ex root pre st).2) := by
  intro pre
  induction pre with
  | nil =>
    intro e post st _ hcb
    simp only [runWalk] at hcb
    simp only [List.nil_append, runWalk, hcb]
  | cons f rest ih =>
    intro e post st hok hcb
    rcases walkCallback_cases ex root st f with h | h | ⟨_, h⟩
    · simp [runWalk, h] at hok
    · simp only [runWalk, h] at hok hcb ⊢
      exact ih e post st hok hcb
    · simp only [runWalk, h] at hok hcb ⊢
      exact ih e post _ hok hcb

/-! ## String decomposition lemmas for removeProjectRoot -/

theorem string_eq_of_data (a b : String) (h : a.data = b.data) : a = b :=
  congrArg String.mk h

theorem strTake_append (a b : String) : strTake (a ++ b) a.length = a := by
  apply string_eq_of_data
  show ((a ++ b).data.take a.length) = a.data
  rw [String.data_append]
  exact List.take_left a.data b.data

theorem strDrop_append (a b : String) : strDrop (a ++ b) a.length = b := by
  apply string_eq_of_data
  show ((a ++ b).data.drop a.length) = b.data
  rw [String.data_append]
  exact List.drop_left a.data b.data

theorem strTake_append_strDrop (s : String) (n : Nat) : strTake s n ++ strDrop s n = s := by
  apply string_eq_of_data
  rw [String.data_append]
  show s.data.take n ++ s.data.drop n = s.data
  exact List.take_append_drop n s.data

/-! ## Properties of the crate_deps map construction -/

theorem lookupDeps_nil (k : Nat) : lookupDeps [] k = [] := rfl

theorem lookupDeps_cons (k2 : Nat) (vs : List Nat)
    (rest : List (Nat × List Nat)) (k : Nat) :
    lookupDeps ((k2, vs) :: rest) k = if k2 = k then vs else lookupDeps rest k := by
  simp only [lookupDeps]
  by_cases h : k2 = k
  · rw [List.find?_cons_of_pos _ (by simpa using h), if_pos h]
  · rw [List.find?_cons_of_neg _ (by simpa using h), if_neg h]

theorem updAssoc_lookup_other (j v k : Nat) (hjk : j ≠ k) :
    ∀ m : List (Nat × List Nat),
    lookupDeps (updAssoc m j v) k = lookupDeps m k := by
  intro m
  induction m with
  | nil =>
    simp only [updAssoc, lookupDeps_cons, lookupDeps_nil, if_neg hjk]
  | cons p rest ih =>
    obtain ⟨k2, vs⟩ := p
    by_cases h2 : k2 = j
    · subst h2
      simp [updAssoc, lookupDeps_cons, hjk]
    · simp only [updAssoc, if_neg h2, lookupDeps_cons, ih]

theorem innerFold_lookup_other (cid k : Nat) (hne : cid ≠ k) :
    ∀ (ds : List Dep) (m : List (Nat × List Nat)),
    lookupDeps (ds.foldl (fun m2 d => updAssoc m2 cid d.crate) m) k = lookupDeps m k := by
  intro ds
  induction ds with
  | nil => intro m; rfl
  | cons d rest ih =>
    intro m
    simp only [List.foldl_cons]
    rw [ih (updAssoc m cid d.crate), updAssoc_lookup_other cid d.crate k hne]

theorem outerFold_lookup_nil (k : Nat) :
    ∀ (l : List Crate) (m : List (Nat × List Nat)),
    (∀ c2 ∈ l, c2.crateId = k → c2.deps = []) →
    lookupDeps
      (l.foldl (fun m c => c.deps.foldl (fun m2 d => updAssoc m2 c.crateId d.crate) m) m) k
      = lookupDeps m k := by
  intro l
  induction l with
  | nil => intro m _; rfl
  | cons c rest ih =>
    intro m h
    simp only [List.foldl_cons]
    rw [ih _ (fun c2 hc2 => h c2 (List.mem_cons_of_mem c hc2))]
    by_cases hck : c.crateId = k
    · rw [h c (List.mem_cons_self c rest) hck]
      rfl
    · exact innerFold_lookup_other c.crateId k hck c.deps m

theorem buildCrateDeps_lookup_nil (crates : List Crate) (k : Nat)
    (h : ∀ c2 ∈ crates, c2.crateId = k → c2.deps = []) :
    lookupDeps (buildCrateDeps crates) k = [] := by
  unfold buildCrateDeps
  rw [outerFold_lookup_nil k crates [] h]
  rfl

theorem allTargets_nil : allTargets [] = [] := rfl

theorem allTargets_cons (k2 : Nat) (vs : List Nat)
    (m : List (Nat × List Nat)) :
    allTargets ((k2, vs) :: m) = vs ++ allTargets m := by
  simp [allTargets]

theorem updAssoc_targets (k v x : Nat) :
    ∀ m : List (Nat × List Nat),
    x ∈ allTargets (updAssoc m k v) → x = v ∨ x ∈ allTargets m := by
  intro m
  induction m with
  | nil =>
    intro hx
    simp only [updAssoc, allTargets_cons, allTargets_nil, List.append_nil] at hx
    exact Or.inl (List.mem_singleton.mp hx)
  | cons p rest ih =>
    obtain ⟨k2, vs⟩ := p
    intro hx
    by_cases h2 : k2 = k
    · simp only [updAssoc, if_pos h2, allTargets_cons] at hx
      rcases List.mem_append.mp hx with h3 | h3
      · rcases List.mem_append.mp h3 with h4 | h4
        · exact Or.inr (by rw [allTargets_cons]; exact List.mem_append_left _ h4)
        · exact Or.inl (List.mem_singleton.mp h4)
      · exact Or.inr (by rw [allTargets_cons]; exact List.mem_append_right _ h3)
    · simp only [updAssoc, if_neg h2, allTargets_cons] at hx
      rcases List.mem_append.mp hx with h3 | h3
      · exact Or.inr (by rw [allTargets_cons]; exact List.mem_append_left _ h3)
      · rcases ih h3 with h4 | h4
        · exact Or.inl h4
        · exact Or.inr (by rw [allTargets_cons]; exact List.mem_append_right _ h4)

theorem innerFold_targets (cid x : Nat) :
    ∀ (ds : List Dep) (m : List (Nat × List Nat)),
    x ∈ allTargets (ds.foldl (fun m2 d => updAssoc m2 cid d.crate) m) →
    x ∈ allTargets m ∨ ∃ dp ∈ ds, dp.crate = x := by
  intro ds
  induction ds with
  | nil => intro m hx; exact Or.inl hx
  | cons d rest ih =>
    intro m hx
    simp only [List.foldl_cons] at hx
    rcases ih (updAssoc m cid d.crate) hx with h | ⟨dp, hdp, h⟩
    · rcases updAssoc_targets cid d.crate x m h with h2 | h2
      · exact Or.inr ⟨d, List.mem_cons_self d rest, h2.symm⟩
      · exact Or.inl h2
    · exact Or.inr ⟨dp, List.mem_cons_of_mem d hdp, h⟩

theorem buildCrateDeps_targets (crates : List Crate) (x : Nat)
    (hx : x ∈ allTargets (buildCrateDeps crates)) :
    ∃ c2 ∈ crates, ∃ dp ∈ c2.deps, dp.crate = x := by
  suffices h : ∀ (l : List Crate) (m : List (Nat × List Nat)),
      x ∈ allTargets
        (l.foldl (fun m c => c.deps.foldl (fun m2 d => updAssoc m2 c.crateId d.crate) m) m) →
      x ∈ allTargets m ∨ ∃ c2 ∈ l, ∃ dp ∈ c2.deps, dp.crate = x by
    rcases h crates [] hx with h2 | h2
    · simp [allTargets_nil] at h2
    · exact h2
  intro l
  induction l with
  | nil => intro m hm; exact Or.inl hm
  | cons c rest ih =>
    intro m hm
    simp only [List.foldl_cons] at hm
    rcases ih _ hm with h2 | ⟨c2, hc2, h2⟩
    · rcases innerFold_targets c.crateId x c.deps m h2 with h3 | ⟨dp, hdp, h3⟩
      · exact Or.inl h3
      · exact Or.inr ⟨c, List.mem_cons_self c rest, dp, hdp, h3⟩
    · exact Or.inr ⟨c2, List.mem_cons_of_mem c hc2, h2⟩

/-! ## Properties of the source-directory aggregation -/

theorem crateId_inj (crates : List Crate) (hnd : (crates.map Crate.crateId).Nodup)
    (a b : Crate) (ha : a ∈ crates) (hb : b ∈ crates) (hid : a.crateId = b.crateId) :
    a = b := by
  induction crates with
  | nil => simp at ha
  | cons c rest ih =>
    rw [List.map_cons, List.nodup_cons] at hnd
    rcases List.mem_cons.mp ha with rfl | ha2
    · rcases List.mem_cons.mp hb with rfl | hb2
      · rfl
      · exact absurd (hid ▸ List.mem_map.mpr ⟨b, hb2, rfl⟩) hnd.1
    · rcases List.mem_cons.mp hb with rfl | hb2
      · exact absurd (hid ▸ List.mem_map.mpr ⟨a, ha2, rfl⟩) hnd.1
      · exact ih hnd.2 ha2 hb2

theorem depDirs_fold_none (crates : List Crate) :
    ∀ ds : List Nat, ds.foldl (depDirsStep crates) none = none := by
  intro ds
  induction ds with
  | nil => rfl
  | cons d rest ih => simpa [depDirsStep] using ih

theorem depDirs_fold_eq (crates : List Crate) :
    ∀ (ds : List Nat) (inc exc : List String),
    (∀ d ∈ ds, d < crates.length) →
    ds.foldl (depDirsStep crates) (some (inc, exc)) =
      some (inc ++ posClosureDirs crates (fun s => s.includeDirs) ds,
        exc ++ posClosureDirs crates (fun s => s.excludeDirs) ds) := by
  intro ds
  induction ds with
  | nil => intro inc exc _; simp [posClosureDirs]
  | cons d rest ih =>
    intro inc exc h
    have hd : d < crates.length := h d (List.mem_cons_self d rest)
    have hget : crates[d]? = some crates[d] := List.getElem?_eq_getElem hd
    simp only [List.foldl_cons, depDirsStep, hget, posClosureDirs]
    by_cases hinc : crates[d].source.includeDirs = none
    · rw [if_neg (fun hcon => hcon hinc),
        ih _ _ (fun x hx => h x (List.mem_cons_of_mem d hx))]
      simp [hinc]
    · rw [if_pos hinc, ih _ _ (fun x hx => h x (List.mem_cons_of_mem d hx))]
      simp [hinc, List.append_assoc]

theorem depDirs_eq (crates : List Crate) (ds : List Nat)
    (h : ∀ d ∈ ds, d < crates.length) :
    depDirs crates ds =
      some (posClosureDirs crates (fun s => s.includeDirs) ds,
        posClosureDirs crates (fun s => s.excludeDirs) ds) := by
  unfold depDirs
  rw [depDirs_fold_eq crates ds [] [] h]
  simp

theorem depDirs_fold_none_iff (crates : List Crate) :
    ∀ (ds : List Nat) (inc exc : List String),
    (ds.foldl (depDirsStep crates) (some (inc, exc)) = none ↔
      ∃ d ∈ ds, crates.length ≤ d) := by
  intro ds
  induction ds with
  | nil => intro inc exc; simp
  | cons d rest ih =>
    intro inc exc
    by_cases hd : d < crates.length
    · have hget : crates[d]? = some crates[d] := List.getElem?_eq_getElem hd
      have hstep : ∃ inc2 exc2,
          depDirsStep crates (some (inc, exc)) d = some (inc2, exc2) := by
        simp only [depDirsStep, hget]
        by_cases hinc : crates[d].source.includeDirs ≠ none
        · exact ⟨_, _, by rw [if_pos hinc]⟩
        · exact ⟨inc, exc, by rw [if_neg hinc]⟩
      obtain ⟨inc2, exc2, hstep⟩ := hstep
      simp only [List.foldl_cons, hstep, ih]
      constructor
      · rintro ⟨d2, hd2, h2⟩
        exact ⟨d2, List.mem_cons_of_mem d hd2, h2⟩
      · rintro ⟨d2, hd2, h2⟩
        rcases List.mem_cons.mp hd2 with rfl | hd2
        · omega
        · exact ⟨d2, hd2, h2⟩
    · have hget : crates[d]? = none := List.getElem?_eq_none_iff.mpr (by omega)
      have hstep : depDirsStep crates (some (inc, exc)) d = none := by
        simp [depDirsStep, hget]
      simp only [List.foldl_cons, hstep, depDirs_fold_none]
      constructor
      · intro _; exact ⟨d, List.mem_cons_self d rest, by omega⟩
      · intro _; trivial

theorem depDirs_none_iff (crates : List Crate) (ds : List Nat) :
    depDirs crates ds = none ↔ ∃ d ∈ ds, crates.length ≤ d := by
  unfold depDirs
  exact depDirs_fold_none_iff crates ds [] []

theorem getSourceDirsAux_none_iff (crates : List Crate) (tdeps : Nat → List Nat) :
    ∀ (l : List Crate) (m : (Nat → List String) × (Nat → List String)),
    (getSourceDirsAux crates tdeps l m = none ↔
      ∃ c ∈ l, depDirs crates (tdeps c.crateId) = none) := by
  intro l
  induction l with
  | nil => intro m; simp [getSourceDirsAux]
  | cons c rest ih =>
    intro m
    cases hdd : depDirs crates (tdeps c.crateId) with
    | none =>
      simp only [getSourceDirsAux, hdd]
      constructor
      · intro _; exact ⟨c, List.mem_cons_self c rest, hdd⟩
      · intro _; trivial
    | some dd =>
      simp only [getSourceDirsAux, hdd, ih]
      constructor
      · rintro ⟨c2, hc2, h2⟩
        exact ⟨c2, List.mem_cons_of_mem c hc2, h2⟩
      · rintro ⟨c2, hc2, h2⟩
        rcases List.mem_cons.mp hc2 with rfl | hc2
        · rw [hdd] at h2; exact absurd h2 (by simp)
        · exact ⟨c2, hc2, h2⟩

theorem getSourceDirsAux_untouched (crates : List Crate) (tdeps : Nat → List Nat)
    (k : Nat) :
    ∀ (l : List Crate) (m m2 : (Nat → List String) × (Nat → List String)),
    getSourceDirsAux crates tdeps l m = some m2 →
    (∀ c ∈ l, c.crateId ≠ k) →
    m2.1 k = m.1 k ∧ m2.2 k = m.2 k := by
  intro l
  induction l with
  | nil =>
    intro m m2 hm _
    simp only [getSourceDirsAux, Option.some_inj] at hm
    rw [← hm]
    exact ⟨rfl, rfl⟩
  | cons c rest ih =>
    intro m m2 hm hk
    cases hdd : depDirs crates (tdeps c.crateId) with
    | none => rw [getSourceDirsAux, hdd] at hm; exact absurd hm (by simp)
    | some dd =>
      rw [getSourceDirsAux, hdd] at hm
      have hck : c.crateId ≠ k := hk c (List.mem_cons_self c rest)
      obtain ⟨h1, h2⟩ := ih _ m2 hm (fun c2 hc2 => hk c2 (List.mem_cons_of_mem c hc2))
      dsimp only at h1 h2
      rw [h1, h2, Function.update_noteq (Ne.symm hck), Function.update_noteq (Ne.symm hck)]
      exact ⟨rfl, rfl⟩

theorem getSourceDirsAux_at_key (crates : List Crate) (tdeps : Nat → List Nat)
    (c : Crate) :
    ∀ (l : List Crate) (m : (Nat → List String) × (Nat → List String)),
    c ∈ l →
    (l.map Crate.crateId).Nodup →
    (∀ c2 ∈ l, (depDirs crates (tdeps c2.crateId)).isSome) →
    ∃ m2 dd, getSourceDirsAux crates tdeps l m = some m2 ∧
      depDirs crates (tdeps c.crateId) = some dd ∧
      m2.1 c.crateId = m.1 c.crateId ++ orEmpty c.source.includeDirs ++ dd.1 ∧
      m2.2 c.crateId = m.2 c.crateId ++ orEmpty c.source.excludeDirs ++ dd.2 := by
  intro l
  induction l with
  | nil => intro m hc; simp at hc
  | cons c0 rest ih =>
    intro m hc hnd hsome
    rw [List.map_cons, List.nodup_cons] at hnd
    obtain ⟨dd0, hdd0⟩ := Option.isSome_iff_exists.mp
      (hsome c0 (List.mem_cons_self c0 rest))
    rcases List.mem_cons.mp hc with rfl | hcrest
    · -- the head is the crate of interest; the rest never touches its key
      have hrest : ∀ c2 ∈ rest, c2.crateId ≠ c.crateId := by
        intro c2 hc2 heq
        exact hnd.1 (heq ▸ List.mem_map.mpr ⟨c2, hc2, rfl⟩)
      have hnone : getSourceDirsAux crates tdeps rest
          (Function.update m.1 c.crateId
            (m.1 c.crateId ++ orEmpty c.source.includeDirs ++ dd0.1),
           Function.update m.2 c.crateId
            (m.2 c.crateId ++ orEmpty c.source.excludeDirs ++ dd0.2)) ≠ none := by
        rw [Ne, getSourceDirsAux_none_iff]
        rintro ⟨c2, hc2, h2⟩
        have := hsome c2 (List.mem_cons_of_mem c hc2)
        rw [h2] at this
        simp at this
      obtain ⟨m2, hm2⟩ := Option.ne_none_iff_exists'.mp hnone
      obtain ⟨h1, h2⟩ := getSourceDirsAux_untouched crates tdeps c.crateId rest _ m2 hm2 hrest
      refine ⟨m2, dd0, ?_, hdd0, ?_, ?_⟩
      · rw [getSourceDirsAux, hdd0]; exact hm2
      · rw [h1]; dsimp only; rw [Function.update_same]
      · rw [h2]; dsimp only; rw [Function.update_same]
    · -- the head is another crate with a different id
      have hne : c0.crateId ≠ c.crateId := by
        intro heq
        exact hnd.1 (heq ▸ List.mem_map.mpr ⟨c, hcrest, rfl⟩)
      obtain ⟨m2, dd, hm2, hdd, h1, h2⟩ := ih
        (Function.update m.1 c0.crateId
          (m.1 c0.crateId ++ orEmpty c0.source.includeDirs ++ dd0.1),
         Function.update m.2 c0.crateId
          (m.2 c0.crateId ++ orEmpty c0.source.excludeDirs ++ dd0.2))
        hcrest hnd.2 (fun c2 hc2 => hsome c2 (List.mem_cons_of_mem c0 hc2))
      refine ⟨m2, dd, ?_, hdd, ?_, ?_⟩
      · rw [getSourceDirsAux, hdd0]; exact hm2
      · rw [h1]; dsimp only; rw [Function.update_noteq (Ne.symm hne)]
      · rw [h2]; dsimp only; rw [Function.update_noteq (Ne.symm hne)]

theorem posClosureDirs_eq_spec (crates : List Crate)
    (hpos : ∀ i, (h : i < crates.length) → crates[i].crateId = i)
    (hnd : (crates.map Crate.crateId).Nodup)
    (proj : Source → Option (List String)) :
    ∀ ds : List Nat, (∀ d ∈ ds, d < crates.length) →
    posClosureDirs crates proj ds = specClosureDirs crates proj ds := by
  intro ds
  induction ds with
  | nil => intro _; rfl
  | cons d rest ih =>
    intro h
    have hd : d < crates.length := h d (List.mem_cons_self d rest)
    have hget : crates[d]? = some crates[d] := List.getElem?_eq_getElem hd
    have hfind : crates.find? (fun cd => cd.crateId == d) = some crates[d] := by
      have hsome : (crates.find? (fun cd => cd.crateId == d)).isSome :=
        List.find?_isSome.mpr ⟨crates[d], List.getElem_mem hd, by simp [hpos d hd]⟩
      obtain ⟨y, hy⟩ := Option.isSome_iff_exists.mp hsome
      have hyid : y.crateId = d := by simpa using List.find?_some hy
      have hym : y ∈ crates := List.mem_of_find?_eq_some hy
      have : y = crates[d] :=
        crateId_inj crates hnd y crates[d] hym (List.getElem_mem hd)
          (by rw [hyid, hpos d hd])
      rw [hy, this]
    simp only [posClosureDirs, specClosureDirs, hget, hfind]
    rw [ih (fun x hx => h x (List.mem_cons_of_mem d hx))]

/-! ## Claim theorems -/

/-- Claim C1: for every crate id and every dependency adjacency map, the
transitive closure computed by getTransitiveDependencies never contains the
crate itself and is duplicate-free, and membership coincides exactly with
reachability along dependency edges — so as a set the result is canonical and
re-running the traversal on the same inputs (whatever enqueue order the
unordered visited map yields) gives the same set. -/
theorem claim_c1_closure_excludes_self (c : Nat) (adj : List (Nat × List Nat)) :
    c ∉ getTransitiveDependencies c adj ∧
    (getTransitiveDependencies c adj).Nodup ∧
    (∀ x, x ∈ getTransitiveDependencies c adj ↔ (Reachable adj c x ∧ x ≠ c)) :=
  ⟨closure_not_self c adj, closure_nodup c adj, fun x => closure_mem_iff c adj x⟩

theorem claim_c1_witness :
    1 ∈ getTransitiveDependencies 0 [(0, [1])] ∧ 0 ∉ getTransitiveDependencies 0 [(0, [1])] :=
  ⟨((claim_c1_closure_excludes_self 0 [(0, [1])]).2.2 1).mpr
    ⟨Relation.ReflTransGen.single (by decide), by decide⟩,
   (claim_c1_closure_excludes_self 0 [(0, [1])]).1⟩

/-- Claim C2: for every crate id and every adjacency map — including cyclic
graphs, over which the traversal is a total function — the closure is a
duplicate-free list whose members all occur among the finitely many dependency
targets stored in the map (so the result is a finite set with an explicit
cardinality bound), and a crate with no adjacency entry behaves as having an
empty neighbor set: its closure is empty rather than an error. -/
theorem claim_c2_closure_terminates (c : Nat) (adj : List (Nat × List Nat)) :
    (getTransitiveDependencies c adj).Nodup ∧
    (∀ x ∈ getTransitiveDependencies c adj, x ∈ allTargets adj) ∧
    (getTransitiveDependencies c adj).length ≤ (allTargets adj).dedup.length ∧
    (lookupDeps adj c = [] → getTransitiveDependencies c adj = []) := by
  have hnd := closure_nodup c adj
  have hsub := closure_sub_targets c adj
  refine ⟨hnd, hsub, ?_, closure_of_no_entry c adj⟩
  have hcard : (getTransitiveDependencies c adj).toFinset.card =
      (getTransitiveDependencies c adj).length := List.toFinset_card_of_nodup hnd
  have hle : (getTransitiveDependencies c adj).toFinset ⊆ (allTargets adj).toFinset := by
    intro x hx
    exact List.mem_toFinset.mpr (hsub x (List.mem_toFinset.mp hx))
  calc (getTransitiveDependencies c adj).length
      = (getTransitiveDependencies c adj).toFinset.card := hcard.symm
    _ ≤ (allTargets adj).toFinset.card := Finset.card_le_card hle
    _ = (allTargets adj).dedup.length := List.card_toFinset (allTargets adj)

theorem claim_c2_witness :
    lookupDeps [(1, [2])] 0 = [] ∧ getTransitiveDependencies 0 [(1, [2])] = [] :=
  ⟨by decide, (claim_c2_closure_terminates 0 [(1, [2])]).2.2.2 (by decide)⟩

/-- Claim C3: every path in the collector's returned source list, and every
appended required input, arises from a walked file that passes both filters (no
exclude directory is a literal string head of its walked path, and its
extension is exactly .rs), recorded under its project-root-stripped path; and a
candidate failing either filter is skipped by the walk callback, leaving the
accumulated state unchanged. -/
theorem claim_c3_collector_filters (include_dirs exclude_dirs : List String)
    (projectRoot : String) (ri0 : List FileInput) (fs : String → List WalkEntry) :
    (∀ p ∈ (getSourceFiles include_dirs exclude_dirs projectRoot ri0 fs).sourceFiles,
      ∃ d ∈ include_dirs, ∃ e ∈ fs d,
        (∀ x ∈ exclude_dirs, goHasPfx e.path x = false) ∧ extGo e.path = ".rs" ∧
        p = removeProjectRoot e.path projectRoot) ∧
    (∀ i ∈ (getSourceFiles include_dirs exclude_dirs projectRoot ri0 fs).requiredInputs,
      i ∈ ri0 ∨ ∃ d ∈ include_dirs, ∃ e ∈ fs d,
        (∀ x ∈ exclude_dirs, goHasPfx e.path x = false) ∧ extGo e.path = ".rs" ∧
        i.info.path = removeProjectRoot e.path projectRoot) ∧
    (∀ (st : List String × List FileInput) (e : WalkEntry),
      e.walkErr = false → e.isDir = false →
      ((∃ x ∈ exclude_dirs, goHasPfx e.path x = true) ∨ extGo e.path ≠ ".rs") →
      walkCallback exclude_dirs projectRoot st e = .ok st) := by
  refine ⟨?_, ?_, fun st e h1 h2 h3 => walkCallback_skip exclude_dirs projectRoot st e h1 h2 h3⟩
  · intro p hp
    have hp2 : p ∈ (include_dirs.foldl
        (fun st dir => (runWalk exclude_dirs projectRoot (fs dir) st).2) ([], ri0)).1 := hp
    rcases collectFold_sources_sub exclude_dirs projectRoot fs include_dirs ([], ri0) p hp2 with
      h | ⟨d, hd, e, he, hcol, heq⟩
    · exact absurd h (by simp)
    · exact ⟨d, hd, e, he, hcol.2.2.1, hcol.2.2.2.1, heq⟩
  · intro i hi
    have hi2 : i ∈ (include_dirs.foldl
        (fun st dir => (runWalk exclude_dirs projectRoot (fs dir) st).2) ([], ri0)).2 := hi
    rcases collectFold_inputs_sub exclude_dirs projectRoot fs include_dirs ([], ri0) i hi2 with
      h | ⟨d, hd, e, he, hcol, heq⟩
    · exact Or.inl h
    · exact Or.inr ⟨d, hd, e, he, hcol.2.2.1, hcol.2.2.2.1, by rw [heq]⟩

theorem claim_c3_witness :
    walkCallback ["/ex/"] "/r/" ([], [])
      ⟨"/r/a/file.txt", false, false, false, false, "d"⟩ = .ok ([], []) :=
  (claim_c3_collector_filters ["dir"] ["/ex/"] "/r/" [] (fun _ => [])).2.2
    ([], []) ⟨"/r/a/file.txt", false, false, false, false, "d"⟩ rfl rfl
    (Or.inr (by decide))

/-- Claim C4: removeProjectRoot strips the projectRoot head exactly when the
path begins with it — a path of the form projectRoot ++ rest is recorded as
rest — and leaves any other path unchanged; in particular the spec's examples
behave as stated. -/
theorem claim_c4_remove_project_root (path projectRoot : String) :
    (∀ rest, path = projectRoot ++ rest → removeProjectRoot path projectRoot = rest) ∧
    ((∀ rest, path ≠ projectRoot ++ rest) → removeProjectRoot path projectRoot = path) := by
  constructor
  · rintro rest rfl
    have hlen : projectRoot.length ≤ (projectRoot ++ rest).length := by
      rw [String.length_append]; omega
    rw [removeProjectRoot, if_pos ⟨hlen, strTake_append projectRoot rest⟩]
    exact strDrop_append projectRoot rest
  · intro h
    rw [removeProjectRoot]
    split_ifs with hcond
    · exfalso
      obtain ⟨hle, htake⟩ := hcond
      refine h (strDrop path projectRoot.length) ?_
      conv_lhs => rw [← strTake_append_strDrop path projectRoot.length]
      rw [htake]
    · rfl

theorem claim_c4_witness :
    removeProjectRoot "/repo/src/lib.rs" "/repo/" = "src/lib.rs" ∧
    removeProjectRoot "/other/lib.rs" "/repo/" = "/other/lib.rs" :=
  ⟨(claim_c4_remove_project_root "/repo/src/lib.rs" "/repo/").1 "src/lib.rs" (by decide),
   (claim_c4_remove_project_root "/other/lib.rs" "/repo/").2 (by
     intro rest hcon
     have htk : strTake "/other/lib.rs" ("/repo/" : String).length = "/repo/" := by
       rw [hcon]; exact strTake_append "/repo/" rest
     exact absurd htk (by decide))⟩

/-- Claim C5 counterexample: in a concrete walk where opening one discovered
file fails between two good files (with a second include directory after it),
getSourceFiles returns with a nil error and keeps the file collected before the
failure plus the other directory's file — the collection call is not failed, so
the crate is not skipped; only the remainder of the failing directory is lost. -/
theorem claim_c5_counterexample :
    getSourceFiles ["/r/a", "/r/b"] [] "/r/" []
      (fun d =>
        if d = "/r/a" then
          [⟨"/r/a/one.rs", false, false, false, false, "d1"⟩,
           ⟨"/r/a/bad.rs", false, false, true, false, "d2"⟩,
           ⟨"/r/a/two.rs", false, false, false, false, "d3"⟩]
        else if d = "/r/b" then
          [⟨"/r/b/three.rs", false, false, false, false, "d4"⟩]
        else []) =
      ⟨["a/one.rs", "b/three.rs"],
       [⟨⟨"fuchsia", "rust", "a/one.rs", ""⟩, ⟨"a/one.rs", "d1"⟩⟩,
        ⟨⟨"fuchsia", "rust", "b/three.rs", ""⟩, ⟨"b/three.rs", "d4"⟩⟩],
       false⟩ := by decide

/-- Claim C5 amended: an I/O error opening a discovered file aborts only the
walk of the include directory containing it — the state accumulated before the
failing entry is kept and the remaining entries of that directory are dropped —
while the collection call itself always returns a nil error (so main's
per-crate error check never fires and the crate is not skipped). -/
theorem claim_c5_amended :
    (∀ (include_dirs exclude_dirs : List String) (projectRoot : String)
      (ri0 : List FileInput) (fs : String → List WalkEntry),
      (getSourceFiles include_dirs exclude_dirs projectRoot ri0 fs).err = false) ∧
    (∀ (exclude_dirs : List String) (projectRoot : String)
      (pre : List WalkEntry) (e : WalkEntry) (post : List WalkEntry)
      (st : List String × List FileInput),
      (runWalk exclude_dirs projectRoot pre st).1 = false →
      walkCallback exclude_dirs projectRoot (runWalk exclude_dirs projectRoot pre st).2 e
        = .error () →
      runWalk exclude_dirs projectRoot (pre ++ e :: post) st =
        (true, (runWalk exclude_dirs projectRoot pre st).2)) :=
  ⟨fun _ _ _ _ _ => rfl,
   fun ex root pre e post st h1 h2 => runWalk_abort ex root pre e post st h1 h2⟩

theorem claim_c5_witness :
    runWalk [] "/r/"
      ([⟨"/r/a/one.rs", false, false, false, false, "d1"⟩] ++
        ⟨"/r/a/bad.rs", false, false, true, false, "d2"⟩ ::
          [⟨"/r/a/two.rs", false, false, false, false, "d3"⟩]) ([], []) =
      (true,
        (runWalk [] "/r/" [⟨"/r/a/one.rs", false, false, false, false, "d1"⟩] ([], [])).2) :=
  claim_c5_amended.2 [] "/r/"
    [⟨"/r/a/one.rs", false, false, false, false, "d1"⟩]
    ⟨"/r/a/bad.rs", false, false, true, false, "d2"⟩
    [⟨"/r/a/two.rs", false, false, false, false, "d3"⟩]
    ([], []) (by decide) rfl

/-- Claim C6 counterexample: a one-crate manifest whose single dependency edge
references the absent CrateId 5 runs the closure fine, but getSourceDirs then
indexes the crate slice positionally at 5, out of range — the Go program
panics, modelled as the none result — instead of tolerating the dangling edge
silently. -/
theorem claim_c6_counterexample :
    getSourceDirs
      [⟨"root.rs", "2021", [⟨5, "dangling"⟩], [], [], [], 0, "lab", "tgt", ⟨none, none⟩⟩]
      (fun k => getTransitiveDependencies k
        (buildCrateDeps
          [⟨"root.rs", "2021", [⟨5, "dangling"⟩], [], [], [], 0, "lab", "tgt",
            ⟨none, none⟩⟩])) = none := by
  have hadj : buildCrateDeps
      [⟨"root.rs", "2021", [⟨5, "dangling"⟩], [], [], [], 0, "lab", "tgt", ⟨none, none⟩⟩]
      = [(0, [5])] := rfl
  have h5 : getTransitiveDependencies 0 [(0, [5])] = [5] := by
    rw [getTransitiveDependencies, bfsLoop_cons]
    have hl : lookupDeps [(0, [5])] 0 = [5] := rfl
    have hfold : ([5] : List Nat).foldl enqDep ([], [0]) = ([5], [5, 0]) := by decide
    rw [hl, hfold]
    rw [show (([5], [5, 0]) : List Nat × List Nat).1 = [5] from rfl,
      show (([5], [5, 0]) : List Nat × List Nat).2 = [5, 0] from rfl]
    rw [bfsLoop_cons]
    have hl2 : lookupDeps [(0, [5])] 5 = [] := rfl
    rw [hl2]
    rw [show (([] : List Nat).foldl enqDep ([], [5, 0])) = ([], [5, 0]) from rfl]
    rw [show (([], [5, 0]) : List Nat × List Nat).1 = [] from rfl,
      show (([], [5, 0]) : List Nat × List Nat).2 = [5, 0] from rfl]
    rw [bfsLoop_nil]
    decide
  have hdd : depDirs
      [⟨"root.rs", "2021", [⟨5, "dangling"⟩], [], [], [], 0, "lab", "tgt", ⟨none, none⟩⟩]
      (getTransitiveDependencies 0
        (buildCrateDeps
          [⟨"root.rs", "2021", [⟨5, "dangling"⟩], [], [], [], 0, "lab", "tgt",
            ⟨none, none⟩⟩])) = none := by
    rw [hadj, h5]
    decide
  rw [getSourceDirs, getSourceDirsAux]
  rw [show (⟨"root.rs", "2021", [⟨5, "dangling"⟩], [], [], [], 0, "lab", "tgt",
      ⟨none, none⟩⟩ : Crate).crateId = 0 from rfl]
  rw [hadj] at hdd ⊢
  rw [hdd]

/-- Claim C6 amended: closure computation tolerates dangling dependency ids
silently (absent adjacency entries are empty neighbor sets and the traversal is
total), but source-directory aggregation, which reads the crate slice
positionally with each closure id, panics — returns none — exactly when some
crate's closure contains an id of at least the number of crates; dangling ids
below that bound are tolerated silently, reading whatever crate sits at that
position. -/
theorem claim_c6_amended (crates : List Crate) (tdeps : Nat → List Nat) :
    getSourceDirs crates tdeps = none ↔
      ∃ c ∈ crates, ∃ d ∈ tdeps c.crateId, crates.length ≤ d := by
  rw [getSourceDirs, getSourceDirsAux_none_iff crates tdeps crates (fun _ => [], fun _ => [])]
  constructor
  · rintro ⟨c, hc, hdd⟩
    obtain ⟨d, hd, h2⟩ := (depDirs_none_iff crates (tdeps c.crateId)).mp hdd
    exact ⟨c, hc, d, hd, h2⟩
  · rintro ⟨c, hc, d, hd, h2⟩
    exact ⟨c, hc, (depDirs_none_iff crates (tdeps c.crateId)).mpr ⟨d, hd, h2⟩⟩

/-- Claim C7: under the manifest invariant that a CrateId addresses the crate
slice (the id equals the position), every crate's aggregated include list is
its own include directories followed, in closure iteration order, by the
include directories of every closure crate that declares any, and its
aggregated exclude list is its own exclude directories followed by those same
closure crates' exclude directories; the lists are plain concatenations, so
duplicate directory strings are not deduplicated. -/
theorem claim_c7_aggregation (crates : List Crate) (tdeps : Nat → List Nat) (c : Crate)
    (hpos : ∀ i, (h : i < crates.length) → crates[i].crateId = i)
    (hc : c ∈ crates)
    (hvalid : ∀ c2 ∈ crates, ∀ d ∈ tdeps c2.crateId, d < crates.length) :
    ∃ m, getSourceDirs crates tdeps = some m ∧
      m.1 c.crateId = orEmpty c.source.includeDirs ++
        specClosureDirs crates (fun s => s.includeDirs) (tdeps c.crateId) ∧
      m.2 c.crateId = orEmpty c.source.excludeDirs ++
        specClosureDirs crates (fun s => s.excludeDirs) (tdeps c.crateId) := by
  have hmap : crates.map Crate.crateId = List.range crates.length := by
    apply List.ext_getElem
    · simp
    · intro i h1 h2
      simp only [List.getElem_map, List.getElem_range]
      exact hpos i (by simpa using h1)
  have hnd : (crates.map Crate.crateId).Nodup := by
    rw [hmap]; exact List.nodup_range crates.length
  have hsome : ∀ c2 ∈ crates, (depDirs crates (tdeps c2.crateId)).isSome := by
    intro c2 hc2
    rw [depDirs_eq crates _ (hvalid c2 hc2)]
    rfl
  obtain ⟨m2, dd, hm2, hdd, h1, h2⟩ :=
    getSourceDirsAux_at_key crates tdeps c crates (fun _ => [], fun _ => []) hc hnd hsome
  have hddpair : dd =
      (posClosureDirs crates (fun s => s.includeDirs) (tdeps c.crateId),
       posClosureDirs crates (fun s => s.excludeDirs) (tdeps c.crateId)) :=
    Option.some_inj.mp (hdd.symm.trans (depDirs_eq crates _ (hvalid c hc)))
  subst hddpair
  dsimp only at h1 h2
  refine ⟨m2, hm2, ?_, ?_⟩
  · rw [h1, posClosureDirs_eq_spec crates hpos hnd _ _ (hvalid c hc)]
    simp
  · rw [h2, posClosureDirs_eq_spec crates hpos hnd _ _ (hvalid c hc)]
    simp

theorem claim_c7_witness :
    ∃ m, getSourceDirs
        [⟨"a.rs", "2021", [⟨1, "b"⟩], [], [], [], 0, "a", "t", ⟨some ["i0"], some ["e0"]⟩⟩,
         ⟨"b.rs", "2021", [], [], [], [], 1, "b", "t", ⟨some ["i1"], some ["e1"]⟩⟩]
        (fun k => if k = 0 then [1] else []) = some m ∧
      m.1 0 = ["i0"] ++
        specClosureDirs
          [⟨"a.rs", "2021", [⟨1, "b"⟩], [], [], [], 0, "a", "t", ⟨some ["i0"], some ["e0"]⟩⟩,
           ⟨"b.rs", "2021", [], [], [], [], 1, "b", "t", ⟨some ["i1"], some ["e1"]⟩⟩]
          (fun s => s.includeDirs) [1] ∧
      m.2 0 = ["e0"] ++
        specClosureDirs
          [⟨"a.rs", "2021", [⟨1, "b"⟩], [], [], [], 0, "a", "t", ⟨some ["i0"], some ["e0"]⟩⟩,
           ⟨"b.rs", "2021", [], [], [], [], 1, "b", "t", ⟨some ["i1"], some ["e1"]⟩⟩]
          (fun s => s.excludeDirs) [1] :=
  claim_c7_aggregation
    [⟨"a.rs", "2021", [⟨1, "b"⟩], [], [], [], 0, "a", "t", ⟨some ["i0"], some ["e0"]⟩⟩,
     ⟨"b.rs", "2021", [], [], [], [], 1, "b", "t", ⟨some ["i1"], some ["e1"]⟩⟩]
    (fun k => if k = 0 then [1] else [])
    ⟨"a.rs", "2021", [⟨1, "b"⟩], [], [], [], 0, "a", "t", ⟨some ["i0"], some ["e0"]⟩⟩
    (by decide) (by decide) (by decide)

/-- Claim C8: a crate with no declared dependency edges has an empty transitive
closure, and — under unique crate ids, with every declared dependency id in
range so the aggregation pass completes — its aggregated include and exclude
directory lists are exactly its own declared directories. -/
theorem claim_c8_no_deps (crates : List Crate) (c : Crate)
    (hnd : (crates.map Crate.crateId).Nodup)
    (hc : c ∈ crates) (hdeps : c.deps = [])
    (hvalid : ∀ c2 ∈ crates, ∀ dp ∈ c2.deps, dp.crate < crates.length) :
    getTransitiveDependencies c.crateId (buildCrateDeps crates) = [] ∧
    ∃ m, getSourceDirs crates
        (fun k => getTransitiveDependencies k (buildCrateDeps crates)) = some m ∧
      m.1 c.crateId = orEmpty c.source.includeDirs ∧
      m.2 c.crateId = orEmpty c.source.excludeDirs := by
  have hempty : lookupDeps (buildCrateDeps crates) c.crateId = [] := by
    apply buildCrateDeps_lookup_nil
    intro c2 hc2 hid
    rw [crateId_inj crates hnd c2 c hc2 hc hid]
    exact hdeps
  have hclosure : getTransitiveDependencies c.crateId (buildCrateDeps crates) = [] :=
    closure_of_no_entry _ _ hempty
  have htval : ∀ c2 ∈ crates,
      ∀ d ∈ getTransitiveDependencies c2.crateId (buildCrateDeps crates),
      d < crates.length := by
    intro c2 hc2 d hd
    obtain ⟨c3, hc3, dp, hdp, hdpeq⟩ := buildCrateDeps_targets crates d
      (closure_sub_targets c2.crateId (buildCrateDeps crates) d hd)
    rw [← hdpeq]
    exact hvalid c3 hc3 dp hdp
  have hsome : ∀ c2 ∈ crates,
      (depDirs crates
        ((fun k => getTransitiveDependencies k (buildCrateDeps crates)) c2.crateId)).isSome := by
    intro c2 hc2
    rw [depDirs_eq crates _ (htval c2 hc2)]
    rfl
  obtain ⟨m2, dd, hm2, hdd, h1, h2⟩ :=
    getSourceDirsAux_at_key crates
      (fun k => getTransitiveDependencies k (buildCrateDeps crates)) c crates
      (fun _ => [], fun _ => []) hc hnd hsome
  rw [hclosure] at hdd
  have hddpair : dd = ([], []) := Option.some_inj.mp hdd.symm
  subst hddpair
  dsimp only at h1 h2
  refine ⟨hclosure, m2, hm2, ?_, ?_⟩
  · rw [h1]; simp
  · rw [h2]; simp

theorem claim_c8_witness :
    getTransitiveDependencies 0
      (buildCrateDeps [⟨"a.rs", "2021", [], [], [], [], 0, "a", "t",
        ⟨some ["i"], some ["e"]⟩⟩]) = [] ∧
    ∃ m, getSourceDirs
        [⟨"a.rs", "2021", [], [], [], [], 0, "a", "t", ⟨some ["i"], some ["e"]⟩⟩]
        (fun k => getTransitiveDependencies k
          (buildCrateDeps [⟨"a.rs", "2021", [], [], [], [], 0, "a", "t",
            ⟨some ["i"], some ["e"]⟩⟩])) = some m ∧
      m.1 0 = ["i"] ∧ m.2 0 = ["e"] :=
  claim_c8_no_deps
    [⟨"a.rs", "2021", [], [], [], [], 0, "a", "t", ⟨some ["i"], some ["e"]⟩⟩]
    ⟨"a.rs", "2021", [], [], [], [], 0, "a", "t", ⟨some ["i"], some ["e"]⟩⟩
    (by decide) (by decide) rfl (by decide)

/-- Claim C9: when the argument checks pass, the project root exists as a
directory, and the manifest decodes to a project with zero crates, main reaches
the marshal of the first crate and panics with an index out of range — before
the output directory is removed and before any output archive is created —
rather than finishing with exit code 0 or reporting a fatal setup error with
exit code 1. -/
theorem claim_c9_empty_manifest (w : World)
    (hargs : 4 ≤ w.args.length)
    (hroot : (w.args.getD 3 "").length ≠ 0)
    (hstat : w.rootStat (normalizeRoot (w.args.getD 3 "")) = .okDir)
    (hman : w.manifest = some (some ⟨[]⟩)) :
    mainModel w = ⟨false, false, .panicIndexOutOfRange .firstCrateIndex⟩ := by
  simp only [mainModel, if_neg (Nat.not_lt.mpr hargs), if_neg hroot, hstat, hman]

theorem claim_c9_witness :
    mainModel ⟨["p", "in", "out", "/r"], fun _ => .okDir, some (some ⟨[]⟩), true, true,
        fun _ => [], fun _ => false⟩ =
      ⟨false, false, .panicIndexOutOfRange .firstCrateIndex⟩ :=
  claim_c9_empty_manifest
    ⟨["p", "in", "out", "/r"], fun _ => .okDir, some (some ⟨[]⟩), true, true,
      fun _ => [], fun _ => false⟩
    (by decide) (by decide) rfl rfl

/-- Claim C10: when at least three arguments are supplied but the project-root
argument is the empty string, main's trailing-separator normalization reads the
last character of an empty string and panics with an index out of range,
instead of reporting a fatal setup error with exit code 1. -/
theorem claim_c10_empty_root (w : World)
    (hargs : 4 ≤ w.args.length)
    (hroot : w.args.getD 3 "" = "") :
    mainModel w = ⟨false, false, .panicIndexOutOfRange .emptyProjectRootIndex⟩ := by
  simp only [mainModel, if_neg (Nat.not_lt.mpr hargs), hroot]
  simp

theorem claim_c10_witness :
    mainModel ⟨["p", "in", "out", ""], fun _ => .okDir, none, true, true,
        fun _ => [], fun _ => false⟩ =
      ⟨false, false, .panicIndexOutOfRange .emptyProjectRootIndex⟩ :=
  claim_c10_empty_root
    ⟨["p", "in", "out", ""], fun _ => .okDir, none, true, true, fun _ => [], fun _ => false⟩
    (by decide) rfl
